import Mathlib

/-!
Verification of the pruning processor
(`consensus/src/pipeline/pruning_processor/processor.rs`).

The development shallowly embeds the data model and the operations of the
pruning processor: keyed stores become association lists, the pruning-point
advancement and the main pruning traversal become executable functions, and
the temporal claims are settled over explicit event traces produced by the
embedded control flow.
-/

namespace Pruning

/-- Block hashes are modelled as natural numbers. -/
abbrev Hash := Nat

/-- The reserved sentinel hash `blockhash::ORIGIN`, a universal ancestor. -/
def ORIGIN : Hash := 0

/-- Association-list lookup; the first matching key wins.  This models a read
from a keyed store. -/
def alookup {α : Type} : List (Nat × α) → Nat → Option α
  | [], _ => none
  | p :: rest, k => if p.1 = k then some p.2 else alookup rest k

/-- Keyed store write, modelled by prepending the new binding; since `alookup`
takes the first match this overwrites any previous binding. -/
def aset {α : Type} (m : List (Nat × α)) (k : Nat) (v : α) : List (Nat × α) :=
  (k, v) :: m

/-- Keyed store delete. -/
def aerase {α : Type} (m : List (Nat × α)) (k : Nat) : List (Nat × α) :=
  m.filter (fun p => p.1 != k)

/-- Delete a hash from a store that is a plain set of hashes. -/
def serase (s : List Hash) (k : Hash) : List Hash :=
  s.filter (fun x => x != k)

/-! ## Pruning-point advancement (`advance_pruning_point_and_candidate_if_possible`) -/

/-- The pruning-info singleton record `{ pruning_point, candidate, index }`. -/
structure PruningInfo where
  pruning_point : Hash
  candidate : Hash
  index : Nat
deriving DecidableEq, Repr

/-- The state touched by the advancement step: the pruning-info singleton and
the past-pruning-points store (`u64 → Hash`). -/
structure AdvState where
  pruningInfo : PruningInfo
  pastPruningPoints : List (Nat × Hash)
deriving DecidableEq, Repr

/-- A single write of the advancement write batch: either an insert into the
past-pruning-points store or the pruning-info `set_batch`. -/
inductive AdvWrite
  | pastPoint : Nat → Hash → AdvWrite
  | setInfo : Hash → Hash → Nat → AdvWrite
deriving DecidableEq, Repr

/-- Apply one write of the batch to the state. -/
def apply_adv_write (st : AdvState) : AdvWrite → AdvState
  | AdvWrite.pastPoint i h => { st with pastPruningPoints := (i, h) :: st.pastPruningPoints }
  | AdvWrite.setInfo pp cand idx => { st with pruningInfo := ⟨pp, cand, idx⟩ }

/-- Apply a whole write batch atomically (a `DB::write` of a `WriteBatch`). -/
def apply_batch (st : AdvState) (batch : List AdvWrite) : AdvState :=
  batch.foldl apply_adv_write st

/-- The single write batch built by the non-empty-advancement branch of
`advance_pruning_point_and_candidate_if_possible` (processor.rs lines 133-140):
for each `(i, past_pp)` of `new_pruning_points.iter().enumerate()` an insert at
key `current index + i + 1`, followed by the pruning-info `set_batch` with the
last new pruning point, the new candidate and `index + len`. -/
def advance_batch (info : PruningInfo) (new_pps : List Hash) (new_candidate : Hash) :
    List AdvWrite :=
  new_pps.enum.map (fun p => AdvWrite.pastPoint (info.index + p.1 + 1) p.2)
    ++ [AdvWrite.setInfo (new_pps.getLastD ORIGIN) new_candidate
          (info.index + new_pps.length)]

/-- State effect of the non-empty-advancement branch: build the batch and
commit it in one `db.write`. -/
def advance_pruning_state (st : AdvState) (new_pps : List Hash) (new_candidate : Hash) :
    AdvState :=
  apply_batch st (advance_batch st.pruningInfo new_pps new_candidate)

/-- State effect of `advance_pruning_point_and_candidate_if_possible`
(processor.rs lines 122-166): if the manager returned new pruning points,
commit the advancement batch; otherwise, if only the candidate moved, rewrite
the pruning-info with the new candidate; otherwise do nothing. -/
def advance_pruning_point_and_candidate (st : AdvState) (new_pps : List Hash)
    (new_candidate : Hash) : AdvState :=
  if !new_pps.isEmpty then
    advance_pruning_state st new_pps new_candidate
  else if new_candidate ≠ st.pruningInfo.candidate then
    { st with pruningInfo := { st.pruningInfo with candidate := new_candidate } }
  else st

/-! ## Keep-set construction (§4.3, processor.rs lines 186-207) -/

/-- A block header; only the fields the pruning processor reads are kept. -/
structure Header where
  hash : Hash
  utxo_commitment : Nat
deriving DecidableEq, Repr

/-- An element of `daa_window_blocks`: a trusted header wrapper. -/
structure TrustedHeader where
  header : Header
deriving DecidableEq, Repr

/-- An element of `ghostdag_blocks`: trusted GHOSTDAG data carrying the hash
of the block it belongs to. -/
structure TrustedGhostdag where
  hash : Hash
deriving DecidableEq, Repr

/-- The pruning-point trusted data `{ anticone, daa_window_blocks,
ghostdag_blocks }`. -/
structure TrustedData where
  anticone : List Hash
  daa_window_blocks : List TrustedHeader
  ghostdag_blocks : List TrustedGhostdag
deriving DecidableEq, Repr

/-- `keep_blocks`: the hashes of the trusted-data anticone
(processor.rs line 200). -/
def keep_blocks_of (data : TrustedData) : List Hash :=
  data.anticone

/-- `keep_relations`: the chained iterator of processor.rs lines 201-206 —
anticone hashes, then the `daa_window_blocks` header hashes, then the
`ghostdag_blocks` hashes, then every header hash of every proof level. -/
def keep_relations_of (data : TrustedData) (proof : List (List Header)) : List Hash :=
  data.anticone
    ++ data.daa_window_blocks.map (fun th => th.header.hash)
    ++ data.ghostdag_blocks.map (fun gd => gd.hash)
    ++ (proof.map (fun level => level.map (fun hd => hd.hash))).flatten

/-- Evaluate `f` on every element, failing if any application fails.  Models a
Rust `map(...unwrap()).collect()` over fallible store reads. -/
def omap {α β : Type} (f : α → Option β) : List α → Option (List β)
  | [] => some []
  | a :: rest =>
    match f a, omap f rest with
    | some b, some bs => some (b :: bs)
    | _, _ => none

/-- `keep_headers`: the `past_pruning_points` helper (processor.rs lines
376-380) reads the current pruning index and collects
`past_pruning_points_store[i]` for `0 ≤ i < index`; a missing entry is a
fatal `unwrap`. -/
def past_pruning_points (st : AdvState) : Option (List Hash) :=
  omap (fun i => alookup st.pastPruningPoints i) (List.range st.pruningInfo.index)

/-! ## UTXO roll-forward and the advancement control flow (processor.rs
lines 132-166 and 168-176) -/

/-- Events of the advancement control flow, in program order: the advancement
batch commit, the pruning-point-UTXO-set write lock, one event per applied
chain-block diff, the lock drop, the sanity commitment check, the `prune`
call, the candidate-only update, and a process abort. -/
inductive AdvEvent
  | commitAdvanceBatch
  | acquireUtxoWrite
  | applyUtxoDiff (h : Hash)
  | dropUtxoWrite
  | commitmentChecked (ok : Bool)
  | pruneCalled
  | candidateUpdated
  | panicked
deriving DecidableEq, Repr

/-- The UTXO roll-forward loop body (processor.rs lines 148-153): for each
chain block, read its UTXO diff — a missing diff is a fatal `expect` — and
fold it into the pruning-point UTXO set with `write_diff`.  The UTXO-set type
and `write_diff` itself live outside this file's source and stay abstract. -/
def utxo_roll {U D : Type} (writeDiff : U → D → U) (diffs : List (Nat × D)) :
    List Hash → U → List AdvEvent × Option U
  | [], u => ([], some u)
  | h :: rest, u =>
    match alookup diffs h with
    | none => ([AdvEvent.panicked], none)
    | some d =>
      let r := utxo_roll writeDiff diffs rest (writeDiff u d)
      (AdvEvent.applyUtxoDiff h :: r.1, r.2)

/-- The UTXO roll-forward over the forward-chain iterator output `chain`
(which by the reachability-service contract runs from the old pruning point to
the new one inclusively): the processor applies `.skip(1)`, so the old pruning
point is excluded and the new one included. -/
def utxo_roll_forward {U D : Type} (writeDiff : U → D → U) (diffs : List (Nat × D))
    (chain : List Hash) (u : U) : List AdvEvent × Option U :=
  utxo_roll writeDiff diffs (chain.drop 1) u

/-- Trace-and-state semantics of `advance_pruning_point_and_candidate_if_possible`
followed by `assert_utxo_commitment`: commit the advancement batch, roll the
UTXO set forward under a single write lock, then (in sanity mode) compare the
MuHash of the rolled set against the new pruning point header's
`utxo_commitment` — a mismatch aborts — and only then call `prune`. -/
def advance_run {U D : Type} (writeDiff : U → D → U) (muhash : U → Nat)
    (headers : List (Nat × Nat)) (diffs : List (Nat × D)) (chain : List Hash)
    (sanity : Bool) (st : AdvState) (new_pps : List Hash) (cand : Hash) (u : U) :
    List AdvEvent × AdvState × Option U :=
  if !new_pps.isEmpty then
    let st2 := advance_pruning_state st new_pps cand
    let rolled := utxo_roll_forward writeDiff diffs chain u
    match rolled.2 with
    | none =>
      (AdvEvent.commitAdvanceBatch :: AdvEvent.acquireUtxoWrite :: rolled.1, st2, none)
    | some u2 =>
      let tail :=
        if sanity then
          match alookup headers (new_pps.getLastD ORIGIN) with
          | none => [AdvEvent.panicked]
          | some com =>
            if muhash u2 = com then
              [AdvEvent.commitmentChecked true, AdvEvent.pruneCalled]
            else
              [AdvEvent.commitmentChecked false, AdvEvent.panicked]
        else [AdvEvent.pruneCalled]
      (AdvEvent.commitAdvanceBatch :: AdvEvent.acquireUtxoWrite ::
        (rolled.1 ++ (AdvEvent.dropUtxoWrite :: tail)), st2, some u2)
  else if cand ≠ st.pruningInfo.candidate then
    ([AdvEvent.candidateUpdated],
     { st with pruningInfo := { st.pruningInfo with candidate := cand } }, some u)
  else ([], st, some u)

/-! ## Relations compaction (§4.4, processor.rs lines 217-236) -/

/-- A GHOSTDAG record, with the fields the compaction rewrites. -/
structure GhostdagData where
  selected_parent : Hash
  mergeset_blues : List Hash
  mergeset_reds : List Hash
  blues_anticone_sizes : List (Hash × Nat)
deriving DecidableEq, Repr

/-- Modelled from the spec: the unordered mergeset of a GHOSTDAG record —
`GhostdagData::unordered_mergeset` lives outside this file's source — chains
the blue mergeset with the red mergeset. -/
def unordered_mergeset (gd : GhostdagData) : List Hash :=
  gd.mergeset_blues ++ gd.mergeset_reds

/-- The rewrite applied to a kept block's GHOSTDAG record (processor.rs lines
223-229): retain only members of `keep_relations` in `mergeset_blues`,
`mergeset_reds` and the keys of `blues_anticone_sizes`, and fall back to
`ORIGIN` when the selected parent itself is not kept. -/
def compact_ghostdag (keep : List Hash) (gd : GhostdagData) : GhostdagData :=
  { selected_parent :=
      if keep.contains gd.selected_parent then gd.selected_parent else ORIGIN,
    mergeset_blues := gd.mergeset_blues.filter (fun x => keep.contains x),
    mergeset_reds := gd.mergeset_reds.filter (fun x => keep.contains x),
    blues_anticone_sizes := gd.blues_anticone_sizes.filter (fun p => keep.contains p.1) }

/-- The compaction write batch (processor.rs lines 219-233): iterate
`keep_relations`; skip blocks with no level-0 GHOSTDAG entry
(`unwrap_option`); rewrite exactly those whose unordered mergeset mentions a
non-kept block. -/
def ghostdag_compaction_batch (keep : List Hash) (store : List (Nat × GhostdagData)) :
    List (Nat × GhostdagData) :=
  keep.filterMap (fun kept =>
    match alookup store kept with
    | none => none
    | some gd =>
      if (unordered_mergeset gd).any (fun x => !(keep.contains x)) then
        some (kept, compact_ghostdag keep gd)
      else none)

/-- Apply the batch of `update_batch` writes in one `db.write`. -/
def apply_ghostdag_updates (store : List (Nat × GhostdagData))
    (batch : List (Nat × GhostdagData)) : List (Nat × GhostdagData) :=
  batch.foldl (fun s p => p :: s) store

/-- The whole compaction block: one batch, built then committed once. -/
def ghostdag_relations_compaction (keep : List Hash)
    (store : List (Nat × GhostdagData)) : List (Nat × GhostdagData) :=
  apply_ghostdag_updates store (ghostdag_compaction_batch keep store)

/-! ## Main traversal (§4.6, processor.rs lines 270-357): state model -/

/-- Block statuses; only `StatusHeaderOnly` is written by the pruning
processor, the second constructor stands for any other status. -/
inductive BlockStatus
  | StatusHeaderOnly
  | StatusUTXOValid
deriving DecidableEq, Repr

/-- The stores touched by the per-block deletions of the traversal.  Set-like
stores are lists of present hashes, keyed stores map a hash to a value, and
the per-level relations/GHOSTDAG stores are lists indexed by block level
holding the hashes that have an entry at that level. -/
structure Stores where
  utxo_multisets : List Hash
  utxo_diffs : List Hash
  acceptance_data : List Hash
  block_transactions : List Hash
  daa_excluded : List Hash
  statuses : List (Nat × BlockStatus)
  headers : List (Nat × Nat)
  relations_stores : List (List Hash)
  ghostdag_stores : List (List Hash)
  window_cache_difficulty : List Hash
  window_cache_median_time : List Hash
deriving DecidableEq, Repr

/-- Modelled from the spec: `StoreResultExtensions::unwrap_option` lives
outside this file's source; it converts a store result into an `Option`,
mapping the missing-key error to `none`. -/
def unwrap_option {ε α : Type} : Except ε α → Option α
  | Except.ok a => some a
  | Except.error _ => none

/-- Modelled from the spec: `relations::delete_level_relations` lives outside
this file's source; it removes a block's entry from one level's relations
store and fails with a missing-key error when the block has no entry at that
level, writing nothing in that case. -/
def delete_level_relations (s : List Hash) (h : Hash) : Except String (List Hash) :=
  if s.contains h then Except.ok (serase s h) else Except.error "key not found"

/-- Modelled from the spec: the per-level GHOSTDAG store `delete_batch` lives
outside this file's source; it removes a block's entry and reports a
missing-key error when there is none. -/
def ghostdag_delete (s : List Hash) (h : Hash) : Except String (List Hash) :=
  if s.contains h then Except.ok (serase s h) else Except.error "key not found"

/-- Run a fallible delete and ignore a missing-key failure, as the
`.unwrap_option()` call sites of processor.rs lines 328-331 do. -/
def apply_tolerant (f : List Hash → Hash → Except String (List Hash))
    (s : List Hash) (h : Hash) : List Hash :=
  match unwrap_option (f s h) with
  | some t => t
  | none => s

/-- The per-level loop of the full prune (processor.rs lines 327-332): for
every `level ∈ 0..=block_level`, delete the level relations and the level
GHOSTDAG entry, each tolerating a missing entry. -/
def prune_levels (st : Stores) (c : Hash) (block_level : Nat) : Stores :=
  (List.range (block_level + 1)).foldl
    (fun s level =>
      { s with
          relations_stores := s.relations_stores.set level
            (apply_tolerant delete_level_relations (s.relations_stores.getD level []) c),
          ghostdag_stores := s.ghostdag_stores.set level
            (apply_tolerant ghostdag_delete (s.ghostdag_stores.getD level []) c) })
    st

/-- Drop the difficulty and past-median-time window-cache entries of the
popped block (processor.rs lines 296-297); this happens before the
`keep_blocks` test. -/
def drop_window_caches (st : Stores) (c : Hash) : Stores :=
  { st with
      window_cache_difficulty := serase st.window_cache_difficulty c,
      window_cache_median_time := serase st.window_cache_median_time c }

/-- The unconditional body/UTXO deletions of processor.rs lines 307-311. -/
def delete_body_data (st : Stores) (c : Hash) : Stores :=
  { st with
      utxo_multisets := serase st.utxo_multisets c,
      utxo_diffs := serase st.utxo_diffs c,
      acceptance_data := serase st.acceptance_data c,
      block_transactions := serase st.block_transactions c,
      daa_excluded := serase st.daa_excluded c }

/-- The full prune of a block outside `keep_relations` (processor.rs lines
316-340): read the header's block level — a missing header is a fatal
`unwrap` — delete relations and GHOSTDAG at every level up to it, delete the
status, and delete the header unless the block is a past pruning point. -/
def fully_prune (keep_headers : List Hash) (st : Stores) (c : Hash) : Option Stores :=
  match alookup st.headers c with
  | none => none
  | some block_level =>
    let st2 := prune_levels st c block_level
    let st3 := { st2 with statuses := aerase st2.statuses c }
    if keep_headers.contains c then some st3
    else some { st3 with headers := aerase st3.headers c }

/-- The per-block treatment of a popped, non-skipped block (processor.rs
lines 295-356): drop its window-cache entries; if it is in `keep_blocks`,
leave it; otherwise delete its body/UTXO data, and either mark it
`StatusHeaderOnly` (if in `keep_relations`) or fully prune it. -/
def prune_block (kb kr kh : List Hash) (st : Stores) (c : Hash) : Option Stores :=
  let st1 := drop_window_caches st c
  if kb.contains c then some st1
  else
    let st2 := delete_body_data st1 c
    if kr.contains c then
      some { st2 with statuses := aset st2.statuses c BlockStatus.StatusHeaderOnly }
    else fully_prune kh st2 c

/-- The traversal loop (processor.rs lines 272-357): a FIFO queue seeded with
`ORIGIN`'s reachability children; a popped block `current` in the future of
the new pruning point is skipped — children not enqueued, nothing touched —
otherwise its tree children are enqueued before it is processed.  `isAnc`
is `is_dag_ancestor_of_result(new_pruning_point, ·)` and `children` the
reachability `get_children`; children links are read before any deletion, so
the tree is queried as a fixed map.  Returns the final stores and the list of
processed blocks, `none` on a fatal error or if the fuel is too small. -/
def prune_traversal (isAnc : Hash → Bool) (children : Hash → List Hash)
    (kb kr kh : List Hash) : Nat → List Hash → Stores → Option (Stores × List Hash)
  | 0, [], st => some (st, [])
  | 0, _ :: _, _ => none
  | _ + 1, [], st => some (st, [])
  | fuel + 1, c :: rest, st =>
    if isAnc c then prune_traversal isAnc children kb kr kh fuel rest st
    else
      match prune_block kb kr kh st c with
      | none => none
      | some st2 =>
        match prune_traversal isAnc children kb kr kh fuel (rest ++ children c) st2 with
        | none => none
        | some (st3, vs) => some (st3, c :: vs)

/-- Every store entry belonging to a hash, as one observable tuple. -/
def stores_at (st : Stores) (h : Hash) :
    Bool × Bool × Bool × Bool × Bool × Option BlockStatus × Option Nat
      × List Bool × List Bool × Bool × Bool :=
  (st.utxo_multisets.contains h, st.utxo_diffs.contains h,
   st.acceptance_data.contains h, st.block_transactions.contains h,
   st.daa_excluded.contains h, alookup st.statuses h, alookup st.headers h,
   st.relations_stores.map (fun s => s.contains h),
   st.ghostdag_stores.map (fun s => s.contains h),
   st.window_cache_difficulty.contains h, st.window_cache_median_time.contains h)

/-! ## Prune phase ordering and tip pruning (§4.5, processor.rs lines
209-272) -/

/-- Lock and commit events of the `prune` phases, in program order. -/
inductive PruneEvent
  | acquirePruneLock
  | acquireReachUpgradableRead
  | commitCompactionBatch
  | commitTipsBatch
  | acquireReachWrite
  | commitBlockBatch (h : Hash)
deriving DecidableEq, Repr

/-- Lock/commit events of the traversal loop: every processed block outside
`keep_blocks` opens a staging reachability overlay whose commit takes the
reachability write lock, writes its batch, and reacquires the upgradable
read (processor.rs lines 299-355). -/
def prune_trace_traversal (isAnc : Hash → Bool) (children : Hash → List Hash)
    (kb : List Hash) : Nat → List Hash → List PruneEvent
  | 0, _ => []
  | _ + 1, [] => []
  | fuel + 1, c :: rest =>
    if isAnc c then prune_trace_traversal isAnc children kb fuel rest
    else if kb.contains c then
      prune_trace_traversal isAnc children kb fuel (rest ++ children c)
    else
      PruneEvent.acquireReachWrite :: PruneEvent.commitBlockBatch c ::
        PruneEvent.acquireReachUpgradableRead ::
        prune_trace_traversal isAnc children kb fuel (rest ++ children c)

/-- Trace and body-tips effect of `prune` after the keep sets are built
(processor.rs lines 181-357): an archival node returns immediately;
otherwise the processor takes the pruning lock, takes the reachability
upgradable read, commits the compaction batch, commits the tips-and-
selected-chain batch — the retained tips are those `t` with
`is_ancestor(new_pruning_point, t)`, the rest go to
`prune_tips_with_writer`, modelled from the spec as removing exactly the
given list — and then runs the traversal. -/
def prune_run (archival : Bool) (isAnc : Hash → Bool) (children : Hash → List Hash)
    (kb : List Hash) (tips : List Hash) (fuel : Nat) :
    List PruneEvent × List Hash :=
  if archival then ([], tips)
  else
    let pruned_tips := tips.filter (fun t => !(isAnc t))
    (PruneEvent.acquirePruneLock :: PruneEvent.acquireReachUpgradableRead ::
       PruneEvent.commitCompactionBatch :: PruneEvent.commitTipsBatch ::
       prune_trace_traversal isAnc children kb fuel (children ORIGIN),
     tips.filter (fun t => !(pruned_tips.contains t)))

/-- Index of the first event satisfying a predicate. -/
def first_idx (p : PruneEvent → Bool) : List PruneEvent → Option Nat
  | [] => none
  | e :: rest => if p e then some 0 else (first_idx p rest).map (fun n => n + 1)

def is_commit_tips : PruneEvent → Bool
  | PruneEvent.commitTipsBatch => true
  | _ => false

def is_reach_write : PruneEvent → Bool
  | PruneEvent.acquireReachWrite => true
  | _ => false

def is_reach_lock : PruneEvent → Bool
  | PruneEvent.acquireReachUpgradableRead => true
  | PruneEvent.acquireReachWrite => true
  | _ => false

/-- The ordering stated by the claim: the tips batch commit strictly precedes
the first reachability lock acquisition (upgradable read or write) of the
pruning processor. -/
def tips_committed_before_reach_lock (evs : List PruneEvent) : Bool :=
  match first_idx is_commit_tips evs, first_idx is_reach_lock evs with
  | some i, some j => decide (i < j)
  | _, _ => true

/-- The amended ordering: the tips batch commit strictly precedes the first
reachability write lock. -/
def tips_committed_before_reach_write (evs : List PruneEvent) : Bool :=
  match first_idx is_commit_tips evs, first_idx is_reach_write evs with
  | some i, some j => decide (i < j)
  | _, _ => true

/-! ## Theorems -/

theorem alookup_nil {α : Type} (k : Nat) : alookup ([] : List (Nat × α)) k = none := rfl

theorem alookup_cons_self {α : Type} (m : List (Nat × α)) (k : Nat) (v : α) :
    alookup ((k, v) :: m) k = some v := by
  simp [alookup]

theorem alookup_cons_ne {α : Type} (m : List (Nat × α)) (k j : Nat) (v : α)
    (h : k ≠ j) : alookup ((k, v) :: m) j = alookup m j := by
  simp [alookup, h]

theorem alookup_aset_self {α : Type} (m : List (Nat × α)) (k : Nat) (v : α) :
    alookup (aset m k v) k = some v := by
  simp [aset, alookup]

theorem alookup_aset_ne {α : Type} (m : List (Nat × α)) (k j : Nat) (v : α)
    (h : j ≠ k) : alookup (aset m k v) j = alookup m j := by
  simp [aset, alookup, fun a => (Ne.symm h : k ≠ j)]
  intro hkj
  exact absurd hkj.symm h

theorem alookup_aerase_self {α : Type} (m : List (Nat × α)) (k : Nat) :
    alookup (aerase m k) k = none := by
  induction m with
  | nil => rfl
  | cons p rest ih =>
    by_cases hp : p.1 = k
    · simpa [aerase, hp] using ih
    · simpa [aerase, alookup, hp] using ih

theorem alookup_aerase_ne {α : Type} (m : List (Nat × α)) (k j : Nat)
    (h : j ≠ k) : alookup (aerase m k) j = alookup m j := by
  induction m with
  | nil => rfl
  | cons p rest ih =>
    simp only [aerase, List.filter_cons] at ih ⊢
    by_cases hp : p.1 = k
    · have hb : (p.1 != k) = false := by simp [hp]
      have hpj : p.1 ≠ j := by rw [hp]; exact fun hkj => h hkj.symm
      rw [hb]
      simp only [Bool.false_eq_true, if_false]
      rw [ih]
      simp [alookup, hpj]
    · have hb : (p.1 != k) = true := by simp [hp]
      rw [hb]
      simp only [if_true]
      by_cases hq : p.1 = j
      · simp [alookup, hq]
      · simp [alookup, hq, ih]

theorem alookup_append {α : Type} (a b : List (Nat × α)) (k : Nat) :
    alookup (a ++ b) k =
      match alookup a k with
      | some v => some v
      | none => alookup b k := by
  induction a with
  | nil => simp [alookup]
  | cons p rest ih =>
    by_cases hp : p.1 = k
    · simp [alookup, hp]
    · simp [alookup, hp, ih]

theorem alookup_none_of_keys {α : Type} (m : List (Nat × α)) (k : Nat)
    (h : ∀ p ∈ m, p.1 ≠ k) : alookup m k = none := by
  induction m with
  | nil => rfl
  | cons p rest ih =>
    have hp : p.1 ≠ k := h p (List.mem_cons_self p rest)
    simp only [alookup, hp, if_false]
    exact ih (fun q hq => h q (List.mem_cons_of_mem p hq))

theorem mem_serase_iff (s : List Hash) (k h : Hash) :
    h ∈ serase s k ↔ h ∈ s ∧ h ≠ k := by
  simp [serase, List.mem_filter]

theorem contains_serase_ne (s : List Hash) (k h : Hash) (hne : h ≠ k) :
    (serase s k).contains h = s.contains h := by
  simp [serase, List.mem_filter, hne]

theorem contains_serase_self (s : List Hash) (k : Hash) :
    (serase s k).contains k = false := by
  simp [serase, List.mem_filter]

theorem apply_batch_append (st : AdvState) (a b : List AdvWrite) :
    apply_batch st (a ++ b) = apply_batch (apply_batch st a) b := by
  simp [apply_batch, List.foldl_append]

theorem apply_past_writes (st : AdvState) (l : List (Nat × Hash)) :
    apply_batch st (l.map (fun p => AdvWrite.pastPoint p.1 p.2)) =
      { st with pastPruningPoints := l.reverse ++ st.pastPruningPoints } := by
  induction l generalizing st with
  | nil => simp [apply_batch]
  | cons p rest ih =>
    simp only [List.map_cons, apply_batch, List.foldl_cons]
    have step : apply_adv_write st (AdvWrite.pastPoint p.1 p.2) =
        { st with pastPruningPoints := (p.1, p.2) :: st.pastPruningPoints } := rfl
    rw [show (List.foldl apply_adv_write (apply_adv_write st (AdvWrite.pastPoint p.1 p.2))
          (List.map (fun p => AdvWrite.pastPoint p.1 p.2) rest)) =
        apply_batch (apply_adv_write st (AdvWrite.pastPoint p.1 p.2))
          (rest.map (fun p => AdvWrite.pastPoint p.1 p.2)) from rfl]
    rw [step, ih]
    simp [List.append_assoc]

theorem fst_ge_of_mem_enumFrom {α : Type} (l : List α) (n : Nat) (p : Nat × α)
    (h : p ∈ List.enumFrom n l) : n ≤ p.1 := by
  induction l generalizing n with
  | nil => simp [List.enumFrom] at h
  | cons x xs ih =>
    simp only [List.enumFrom, List.mem_cons] at h
    cases h with
    | inl he => rw [he]
    | inr hm => exact Nat.le_of_succ_le (ih (n + 1) hm)

theorem alookup_enumFrom_writes (l : List Hash) (b n i : Nat) (hi : i < l.length) :
    alookup (((List.enumFrom n l).map (fun p => (b + p.1 + 1, p.2))).reverse)
        (b + n + i + 1) = l[i]? := by
  induction l generalizing n i with
  | nil => simp at hi
  | cons x xs ih =>
    simp only [List.enumFrom, List.map_cons, List.reverse_cons]
    cases i with
    | zero =>
      have hnone : alookup
          (((List.enumFrom (n + 1) xs).map (fun p => (b + p.1 + 1, p.2))).reverse)
          (b + n + 0 + 1) = none := by
        apply alookup_none_of_keys
        intro q hq
        simp only [List.mem_reverse, List.mem_map] at hq
        obtain ⟨r, hr, hq2⟩ := hq
        have := fst_ge_of_mem_enumFrom xs (n + 1) r hr
        rw [← hq2]
        simp only []
        omega
      rw [alookup_append, hnone]
      simp [alookup]
    | succ j =>
      have hj : j < xs.length := by simpa using Nat.lt_of_succ_lt_succ hi
      have := ih (n + 1) j hj
      have harith : b + (n + 1) + j + 1 = b + n + (j + 1) + 1 := by omega
      rw [harith] at this
      rw [alookup_append, this]
      have hsome : ∃ v, xs[j]? = some v := by
        simp [List.getElem?_eq_getElem hj]
      obtain ⟨v, hv⟩ := hsome
      simp [hv]

theorem alookup_enum_writes_le (l : List Hash) (b j : Nat) (hj : j ≤ b) :
    alookup ((l.enum.map (fun p => (b + p.1 + 1, p.2))).reverse) j = none := by
  apply alookup_none_of_keys
  intro q hq
  simp only [List.mem_reverse, List.mem_map] at hq
  obtain ⟨r, _, hq2⟩ := hq
  rw [← hq2]
  simp only []
  omega

theorem advance_state_decomposition (st : AdvState) (new_pps : List Hash) (cand : Hash) :
    advance_pruning_state st new_pps cand =
      { pruningInfo :=
          ⟨new_pps.getLastD ORIGIN, cand, st.pruningInfo.index + new_pps.length⟩,
        pastPruningPoints :=
          (new_pps.enum.map (fun p => (st.pruningInfo.index + p.1 + 1, p.2))).reverse
            ++ st.pastPruningPoints } := by
  unfold advance_pruning_state advance_batch
  rw [show (new_pps.enum.map
        (fun p => AdvWrite.pastPoint (st.pruningInfo.index + p.1 + 1) p.2)) =
      ((new_pps.enum.map (fun p => (st.pruningInfo.index + p.1 + 1, p.2))).map
        (fun q => AdvWrite.pastPoint q.1 q.2)) from by rw [List.map_map]; exact rfl]
  rw [apply_batch_append, apply_past_writes]
  rfl

theorem getElem?_length_pred (l : List Hash) (hne : l ≠ []) :
    l[l.length - 1]? = some (l.getLastD ORIGIN) := by
  rw [← List.getLast?_eq_getElem?]
  cases l with
  | nil => exact absurd rfl hne
  | cons a as =>
    rw [List.getLastD_eq_getLast?]
    cases h : (a :: as).getLast? with
    | none => simp [List.getLast?] at h
    | some v => simp

theorem isEmpty_false_of_ne_nil {α : Type} (l : List α) (h : l ≠ []) :
    l.isEmpty = false := by
  cases l with
  | nil => exact absurd rfl h
  | cons a as => rfl

/-- Claim C3: with a non-empty manager result, the processor commits one
write batch that appends each of the `new_pruning_points` at consecutive
indices `index + 1, …, index + len` of the past-pruning-points store and sets
the pruning info to `{ last(new_pruning_points), new_candidate, index + len }`,
where `index` is the pre-update value; the index strictly increases by `len`,
the entry at the new index is the new pruning point, and all previously
written entries are untouched. -/
theorem advancement_batch_spec (st : AdvState) (new_pps : List Hash) (cand : Hash)
    (hne : new_pps ≠ []) :
    (∀ i, i < new_pps.length →
        alookup (advance_pruning_point_and_candidate st new_pps cand).pastPruningPoints
          (st.pruningInfo.index + i + 1) = new_pps[i]?)
    ∧ (advance_pruning_point_and_candidate st new_pps cand).pruningInfo
        = ⟨new_pps.getLastD ORIGIN, cand, st.pruningInfo.index + new_pps.length⟩
    ∧ (advance_pruning_point_and_candidate st new_pps cand).pruningInfo.index
        = st.pruningInfo.index + new_pps.length
    ∧ st.pruningInfo.index
        < (advance_pruning_point_and_candidate st new_pps cand).pruningInfo.index
    ∧ alookup (advance_pruning_point_and_candidate st new_pps cand).pastPruningPoints
        ((advance_pruning_point_and_candidate st new_pps cand).pruningInfo.index)
        = some (new_pps.getLastD ORIGIN)
    ∧ (∀ j, j ≤ st.pruningInfo.index →
        alookup (advance_pruning_point_and_candidate st new_pps cand).pastPruningPoints j
          = alookup st.pastPruningPoints j) := by
  have hempty : new_pps.isEmpty = false := isEmpty_false_of_ne_nil new_pps hne
  have hred : advance_pruning_point_and_candidate st new_pps cand
      = advance_pruning_state st new_pps cand := by
    simp [advance_pruning_point_and_candidate, hempty]
  have hlen : 0 < new_pps.length := List.length_pos.mpr hne
  rw [hred, advance_state_decomposition]
  refine ⟨?_, rfl, rfl, by simp [hlen], ?_, ?_⟩
  · intro i hi
    have hkey := alookup_enumFrom_writes new_pps st.pruningInfo.index 0 i hi
    rw [show st.pruningInfo.index + 0 + i + 1 = st.pruningInfo.index + i + 1
      from by omega] at hkey
    rw [show new_pps.enum = List.enumFrom 0 new_pps from rfl]
    simp only []
    rw [alookup_append, hkey]
    have hv1 : ∃ v, new_pps[i]? = some v := by
      simp [List.getElem?_eq_getElem hi]
    obtain ⟨v, hv⟩ := hv1
    simp [hv]
  · simp only []
    have hkey := alookup_enumFrom_writes new_pps st.pruningInfo.index 0
      (new_pps.length - 1) (by omega)
    rw [show st.pruningInfo.index + 0 + (new_pps.length - 1) + 1
        = st.pruningInfo.index + new_pps.length from by omega] at hkey
    rw [show new_pps.enum = List.enumFrom 0 new_pps from rfl]
    rw [alookup_append, hkey, getElem?_length_pred new_pps hne]
  · intro j hj
    simp only []
    rw [alookup_append, alookup_enum_writes_le new_pps st.pruningInfo.index j hj]

theorem advancement_batch_spec_witness :
    alookup (advance_pruning_point_and_candidate
        ⟨⟨10, 11, 0⟩, [(0, 10)]⟩ [7, 8] 12).pastPruningPoints 2 = some 8
    ∧ (advance_pruning_point_and_candidate
        ⟨⟨10, 11, 0⟩, [(0, 10)]⟩ [7, 8] 12).pruningInfo.index = 2 := by
  have h := advancement_batch_spec ⟨⟨10, 11, 0⟩, [(0, 10)]⟩ [7, 8] 12 (by decide)
  exact ⟨by simpa using h.2.2.2.2.1, by simpa using h.2.2.1⟩

theorem omap_mem {α β : Type} (f : α → Option β) (l : List α) (r : List β)
    (h : omap f l = some r) (b : β) : b ∈ r ↔ ∃ a ∈ l, f a = some b := by
  induction l generalizing r with
  | nil =>
    simp only [omap, Option.some.injEq] at h
    subst h
    simp
  | cons a rest ih =>
    simp only [omap] at h
    cases hfa : f a with
    | none => rw [hfa] at h; exact absurd h (by simp)
    | some v =>
      rw [hfa] at h
      cases hrest : omap f rest with
      | none => rw [hrest] at h; exact absurd h (by simp)
      | some vs =>
        rw [hrest] at h
        simp only [Option.some.injEq] at h
        subst h
        simp only [List.mem_cons]
        constructor
        · intro hb
          cases hb with
          | inl he => exact ⟨a, Or.inl rfl, by rw [hfa, he]⟩
          | inr hm =>
            obtain ⟨x, hx, hfx⟩ := (ih vs hrest).mp hm
            exact ⟨x, Or.inr hx, hfx⟩
        · rintro ⟨x, hx, hfx⟩
          cases hx with
          | inl he =>
            subst he
            rw [hfa] at hfx
            exact Or.inl (Option.some.inj hfx).symm
          | inr hm => exact Or.inr ((ih vs hrest).mpr ⟨x, hm, hfx⟩)

/-- Claim C2: before pruning, `keep_blocks` is exactly the trusted-data
anticone; `keep_relations` holds exactly the anticone hashes, the
`daa_window_blocks` header hashes, the `ghostdag_blocks` hashes and the hashes
of every level of the pruning-point proof; and `keep_headers` is exactly the
set of past pruning points at indices `0 ≤ i < pruning_info.index`, where the
index is the one read after the advancement (so the new pruning point, stored
at the index itself, is excluded). -/
theorem keep_sets_characterization (data : TrustedData) (proof : List (List Header))
    (h : Hash) (st : AdvState) (new_pps : List Hash) (cand : Hash) (l : List Hash)
    (hne : new_pps ≠ [])
    (hpast : past_pruning_points
      (advance_pruning_point_and_candidate st new_pps cand) = some l) :
    (keep_blocks_of data = data.anticone)
    ∧ (h ∈ keep_relations_of data proof ↔
        h ∈ data.anticone
        ∨ (∃ th ∈ data.daa_window_blocks, th.header.hash = h)
        ∨ (∃ gd ∈ data.ghostdag_blocks, gd.hash = h)
        ∨ (∃ level ∈ proof, ∃ hd ∈ level, hd.hash = h))
    ∧ (advance_pruning_point_and_candidate st new_pps cand).pruningInfo.index
        = st.pruningInfo.index + new_pps.length
    ∧ (h ∈ l ↔ ∃ i, i < st.pruningInfo.index + new_pps.length
        ∧ alookup (advance_pruning_point_and_candidate
            st new_pps cand).pastPruningPoints i = some h) := by
  have hempty : new_pps.isEmpty = false := isEmpty_false_of_ne_nil new_pps hne
  have hred : advance_pruning_point_and_candidate st new_pps cand
      = advance_pruning_state st new_pps cand := by
    simp [advance_pruning_point_and_candidate, hempty]
  have hidx : (advance_pruning_point_and_candidate st new_pps cand).pruningInfo.index
      = st.pruningInfo.index + new_pps.length := by
    rw [hred, advance_state_decomposition]
  refine ⟨rfl, ?_, hidx, ?_⟩
  · simp only [keep_relations_of, List.mem_append, List.mem_map, List.mem_flatten]
    constructor
    · rintro (((ha | ⟨th, hth, hh⟩) | ⟨gd, hgd, hh⟩) | ⟨s, ⟨lev, hlev, hs⟩, hhs⟩)
      · exact Or.inl ha
      · exact Or.inr (Or.inl ⟨th, hth, hh⟩)
      · exact Or.inr (Or.inr (Or.inl ⟨gd, hgd, hh⟩))
      · subst hs
        obtain ⟨hd, hhd, hh⟩ := List.mem_map.mp hhs
        exact Or.inr (Or.inr (Or.inr ⟨lev, hlev, hd, hhd, hh⟩))
    · rintro (ha | ⟨th, hth, hh⟩ | ⟨gd, hgd, hh⟩ | ⟨lev, hlev, hd, hhd, hh⟩)
      · exact Or.inl (Or.inl (Or.inl ha))
      · exact Or.inl (Or.inl (Or.inr ⟨th, hth, hh⟩))
      · exact Or.inl (Or.inr ⟨gd, hgd, hh⟩)
      · exact Or.inr ⟨lev.map (fun hd => hd.hash), ⟨lev, hlev, rfl⟩,
          List.mem_map.mpr ⟨hd, hhd, hh⟩⟩
  · unfold past_pruning_points at hpast
    have hm := omap_mem _ _ _ hpast h
    rw [hm]
    constructor
    · rintro ⟨i, hi, hl⟩
      exact ⟨i, by rw [← hidx]; exact List.mem_range.mp hi, hl⟩
    · rintro ⟨i, hi, hl⟩
      exact ⟨i, List.mem_range.mpr (by rw [hidx]; exact hi), hl⟩

theorem keep_sets_characterization_witness :
    (keep_blocks_of ⟨[5], [⟨⟨6, 0⟩⟩], [⟨7⟩]⟩ = [5])
    ∧ (6 ∈ keep_relations_of ⟨[5], [⟨⟨6, 0⟩⟩], [⟨7⟩]⟩ [[⟨5, 0⟩], [⟨1, 0⟩]] ↔
        6 ∈ ([5] : List Hash)
        ∨ (∃ th ∈ [(⟨⟨6, 0⟩⟩ : TrustedHeader)], th.header.hash = 6)
        ∨ (∃ gd ∈ [(⟨7⟩ : TrustedGhostdag)], gd.hash = 6)
        ∨ (∃ level ∈ [[(⟨5, 0⟩ : Header)], [⟨1, 0⟩]], ∃ hd ∈ level, hd.hash = 6)) := by
  have h := keep_sets_characterization ⟨[5], [⟨⟨6, 0⟩⟩], [⟨7⟩]⟩
    [[⟨5, 0⟩], [⟨1, 0⟩]] 6 ⟨⟨10, 11, 0⟩, [(0, 10)]⟩ [7] 12 [10]
    (by decide) (by decide)
  exact ⟨h.1, h.2.1⟩

theorem utxo_roll_success {U D : Type} (writeDiff : U → D → U) (diffs : List (Nat × D))
    (l : List Hash) (u : U) (ds : List D)
    (hds : omap (fun h2 => alookup diffs h2) l = some ds) :
    utxo_roll writeDiff diffs l u = (l.map AdvEvent.applyUtxoDiff, some (ds.foldl writeDiff u)) := by
  induction l generalizing u ds with
  | nil =>
    simp only [omap, Option.some.injEq] at hds
    subst hds
    rfl
  | cons h rest ih =>
    simp only [omap] at hds
    cases hd : alookup diffs h with
    | none => rw [hd] at hds; exact absurd hds (by simp)
    | some d =>
      rw [hd] at hds
      cases hrest : omap (fun h2 => alookup diffs h2) rest with
      | none => rw [hrest] at hds; exact absurd hds (by simp)
      | some ds2 =>
        rw [hrest] at hds
        simp only [Option.some.injEq] at hds
        subst hds
        simp only [utxo_roll, hd, ih (writeDiff u d) ds2 hrest, List.map_cons,
          List.foldl_cons]

theorem utxo_roll_missing {U D : Type} (writeDiff : U → D → U) (diffs : List (Nat × D))
    (l : List Hash) (u : U) (h2 : Hash) (hmem : h2 ∈ l)
    (hnone : alookup diffs h2 = none) :
    (utxo_roll writeDiff diffs l u).2 = none := by
  induction l generalizing u with
  | nil => simp at hmem
  | cons h rest ih =>
    cases hd : alookup diffs h with
    | none => simp [utxo_roll, hd]
    | some d =>
      have hmem2 : h2 ∈ rest := by
        cases List.mem_cons.mp hmem with
        | inl he => subst he; rw [hd] at hnone; exact absurd hnone (by simp)
        | inr hm => exact hm
      simp [utxo_roll, hd, ih (writeDiff u d) hmem2]

theorem utxo_roll_events_shape {U D : Type} (writeDiff : U → D → U)
    (diffs : List (Nat × D)) (l : List Hash) (u : U) (e : AdvEvent)
    (he : e ∈ (utxo_roll writeDiff diffs l u).1) :
    (∃ h2, e = AdvEvent.applyUtxoDiff h2) ∨ e = AdvEvent.panicked := by
  induction l generalizing u with
  | nil => simp [utxo_roll] at he
  | cons h rest ih =>
    cases hd : alookup diffs h with
    | none =>
      simp [utxo_roll, hd] at he
      exact Or.inr he
    | some d =>
      simp only [utxo_roll, hd, List.mem_cons] at he
      cases he with
      | inl hh => exact Or.inl ⟨h, hh⟩
      | inr hm => exact ih (writeDiff u d) hm

/-- Claim C4: the UTXO roll-forward processes exactly the chain blocks
strictly after the old pruning point up to and including the new one — the
forward-chain iterator output with its first element skipped — in ascending
order, folding each block's UTXO diff into the pruning-point UTXO set; the
whole iteration sits between one `acquireUtxoWrite` and one `dropUtxoWrite`
(a single write lock); and a missing UTXO diff for any such chain block makes
the roll-forward fail fatally. -/
theorem utxo_roll_forward_spec {U D : Type} (writeDiff : U → D → U) (muhash : U → Nat)
    (headers : List (Nat × Nat)) (diffs : List (Nat × D)) (chain : List Hash)
    (st : AdvState) (new_pps : List Hash) (cand : Hash) (u : U) (ds : List D)
    (hne : new_pps ≠ [])
    (hds : omap (fun h2 => alookup diffs h2) (chain.drop 1) = some ds) :
    (utxo_roll_forward writeDiff diffs chain u).2 = some (ds.foldl writeDiff u)
    ∧ (utxo_roll_forward writeDiff diffs chain u).1
        = (chain.drop 1).map AdvEvent.applyUtxoDiff
    ∧ (advance_run writeDiff muhash headers diffs chain false st new_pps cand u).1
        = AdvEvent.commitAdvanceBatch :: AdvEvent.acquireUtxoWrite ::
            ((chain.drop 1).map AdvEvent.applyUtxoDiff
              ++ [AdvEvent.dropUtxoWrite, AdvEvent.pruneCalled])
    ∧ (∀ diffs2 : List (Nat × D), ∀ h2 ∈ chain.drop 1, alookup diffs2 h2 = none →
        (utxo_roll_forward writeDiff diffs2 chain u).2 = none) := by
  have hempty : new_pps.isEmpty = false := isEmpty_false_of_ne_nil new_pps hne
  have hroll := utxo_roll_success writeDiff diffs (chain.drop 1) u ds hds
  have h2 : (utxo_roll_forward writeDiff diffs chain u).2 = some (ds.foldl writeDiff u) := by
    unfold utxo_roll_forward
    rw [hroll]
  have h1 : (utxo_roll_forward writeDiff diffs chain u).1
      = (chain.drop 1).map AdvEvent.applyUtxoDiff := by
    unfold utxo_roll_forward
    rw [hroll]
  refine ⟨h2, h1, ?_, ?_⟩
  · simp only [advance_run, hempty, Bool.not_false, if_true, h2]
    rw [h1]
    simp only [Bool.false_eq_true, if_false]
  · intro diffs2 hh hmem hnone
    exact utxo_roll_missing writeDiff diffs2 (chain.drop 1) u hh hmem hnone

theorem utxo_roll_forward_spec_witness :
    (utxo_roll_forward Nat.add [(2, 3), (3, 4)] [1, 2, 3] 0).2 = some 7
    ∧ (utxo_roll_forward Nat.add [(2, 3)] [1, 2, 3] 0).2 = none := by
  have h := utxo_roll_forward_spec Nat.add (fun u => u) [] [(2, 3), (3, 4)]
    [1, 2, 3] ⟨⟨10, 11, 0⟩, [(0, 10)]⟩ [7] 12 0 [3, 4] (by decide) (by decide)
  exact ⟨h.1, h.2.2.2 [(2, 3)] 3 (by decide) (by decide)⟩

/-- Claim C7: when the sanity-mode UTXO commitment check fails, the run aborts
with no `prune` call, but the advancement batch has already been committed —
its commit is the first event, strictly before the commitment check; and on a
passing check the `prune` call comes strictly after the check. -/
theorem sanity_failure_after_advancement {U D : Type} (writeDiff : U → D → U)
    (muhash : U → Nat) (headers : List (Nat × Nat)) (diffs : List (Nat × D))
    (chain : List Hash) (st : AdvState) (new_pps : List Hash) (cand : Hash)
    (u u2 : U) (com : Nat)
    (hne : new_pps ≠ [])
    (hroll : (utxo_roll_forward writeDiff diffs chain u).2 = some u2)
    (hhdr : alookup headers (new_pps.getLastD ORIGIN) = some com)
    (hfail : muhash u2 ≠ com) :
    (advance_run writeDiff muhash headers diffs chain true st new_pps cand u).1
      = AdvEvent.commitAdvanceBatch :: AdvEvent.acquireUtxoWrite ::
          ((utxo_roll_forward writeDiff diffs chain u).1
            ++ [AdvEvent.dropUtxoWrite, AdvEvent.commitmentChecked false,
                AdvEvent.panicked])
    ∧ AdvEvent.pruneCalled
        ∉ (advance_run writeDiff muhash headers diffs chain true st new_pps cand u).1
    ∧ (advance_run writeDiff muhash headers diffs chain true st new_pps cand u).2.1
        = advance_pruning_state st new_pps cand
    ∧ (∀ muhash2 : U → Nat, muhash2 u2 = com →
        (advance_run writeDiff muhash2 headers diffs chain true st new_pps cand u).1
          = AdvEvent.commitAdvanceBatch :: AdvEvent.acquireUtxoWrite ::
              ((utxo_roll_forward writeDiff diffs chain u).1
                ++ [AdvEvent.dropUtxoWrite, AdvEvent.commitmentChecked true,
                    AdvEvent.pruneCalled])) := by
  have hempty : new_pps.isEmpty = false := isEmpty_false_of_ne_nil new_pps hne
  have htrace :
      (advance_run writeDiff muhash headers diffs chain true st new_pps cand u).1
        = AdvEvent.commitAdvanceBatch :: AdvEvent.acquireUtxoWrite ::
            ((utxo_roll_forward writeDiff diffs chain u).1
              ++ [AdvEvent.dropUtxoWrite, AdvEvent.commitmentChecked false,
                  AdvEvent.panicked]) := by
    simp only [advance_run, hempty, Bool.not_false, if_true, hroll]
    rw [hhdr]
    simp [hfail]
  have hstate :
      (advance_run writeDiff muhash headers diffs chain true st new_pps cand u).2.1
        = advance_pruning_state st new_pps cand := by
    simp only [advance_run, hempty, Bool.not_false, if_true, hroll]
  refine ⟨htrace, ?_, hstate, ?_⟩
  · rw [htrace]
    intro hmem
    simp only [List.mem_cons, List.mem_append, List.mem_cons, List.mem_singleton] at hmem
    rcases hmem with h | h | h | h
    · exact absurd h (by decide)
    · exact absurd h (by decide)
    · rcases utxo_roll_events_shape writeDiff diffs (chain.drop 1) u _ h with ⟨h3, he⟩ | he
      · exact absurd he (by simp)
      · exact absurd he (by decide)
    · rcases h with h | h | h
      · exact absurd h (by decide)
      · exact absurd h (by decide)
      · simp at h
  · intro muhash2 hok
    simp only [advance_run, hempty, Bool.not_false, if_true, hroll]
    rw [hhdr]
    simp [hok]

theorem sanity_failure_after_advancement_witness :
    AdvEvent.pruneCalled
      ∉ (advance_run Nat.add (fun u => u) [(7, 99)] [(3, 5)] [2, 3] true
          ⟨⟨10, 11, 0⟩, [(0, 10)]⟩ [7] 12 0).1
    ∧ (advance_run Nat.add (fun u => u) [(7, 99)] [(3, 5)] [2, 3] true
        ⟨⟨10, 11, 0⟩, [(0, 10)]⟩ [7] 12 0).2.1
      = advance_pruning_state ⟨⟨10, 11, 0⟩, [(0, 10)]⟩ [7] 12 := by
  have h := sanity_failure_after_advancement Nat.add (fun u => u) [(7, 99)]
    [(3, 5)] [2, 3] ⟨⟨10, 11, 0⟩, [(0, 10)]⟩ [7] 12 0 5 99
    (by decide) (by decide) (by decide) (by decide)
  exact ⟨h.2.1, h.2.2.1⟩

theorem any_not_contains_iff (l keep : List Hash) :
    (l.any (fun x => !(keep.contains x)) = true) ↔ ∃ x ∈ l, x ∉ keep := by
  simp [List.any_eq_true]

theorem foldl_prepend {α : Type} (batch store : List α) :
    batch.foldl (fun s p => p :: s) store = batch.reverse ++ store := by
  induction batch generalizing store with
  | nil => simp
  | cons p rest ih =>
    simp only [List.foldl_cons, List.reverse_cons, List.append_assoc]
    rw [ih]
    simp

theorem alookup_of_mem_unique {α : Type} (m : List (Nat × α)) (k : Nat) (v : α)
    (hex : ∃ g, (k, g) ∈ m) (huniq : ∀ g, (k, g) ∈ m → g = v) :
    alookup m k = some v := by
  induction m with
  | nil => obtain ⟨g, hg⟩ := hex; simp at hg
  | cons p rest ih =>
    by_cases hp : p.1 = k
    · have : p = (k, p.2) := by
        rw [← hp]
      have hv : p.2 = v := huniq p.2 (by rw [← this]; exact List.mem_cons_self p rest)
      simp [alookup, hp, hv]
    · simp only [alookup, hp, if_false]
      apply ih
      · obtain ⟨g, hg⟩ := hex
        cases List.mem_cons.mp hg with
        | inl he => exact absurd (congrArg Prod.fst he).symm hp
        | inr hm => exact ⟨g, hm⟩
      · intro g hg
        exact huniq g (List.mem_cons_of_mem p hg)

theorem ghostdag_compaction_batch_mem (keep : List Hash)
    (store : List (Nat × GhostdagData)) (kept : Hash) (gd2 : GhostdagData) :
    (kept, gd2) ∈ ghostdag_compaction_batch keep store ↔
      kept ∈ keep ∧ ∃ gd, alookup store kept = some gd
        ∧ (∃ x ∈ unordered_mergeset gd, x ∉ keep)
        ∧ gd2 = compact_ghostdag keep gd := by
  unfold ghostdag_compaction_batch
  rw [List.mem_filterMap]
  constructor
  · rintro ⟨a, ha, hfa⟩
    cases hga : alookup store a with
    | none => rw [hga] at hfa; exact absurd hfa (by simp)
    | some gd =>
      rw [hga] at hfa
      have hfa2 : (if (unordered_mergeset gd).any (fun x => !(keep.contains x)) then
          some (a, compact_ghostdag keep gd) else none) = some (kept, gd2) := hfa
      by_cases hcond : (unordered_mergeset gd).any (fun x => !(keep.contains x)) = true
      · rw [if_pos hcond] at hfa2
        have h1 : a = kept ∧ compact_ghostdag keep gd = gd2 := by
          have := Option.some.inj hfa2
          exact ⟨congrArg Prod.fst this, congrArg Prod.snd this⟩
        obtain ⟨he, hc⟩ := h1
        subst he
        exact ⟨ha, gd, hga, (any_not_contains_iff _ keep).mp hcond, hc.symm⟩
      · rw [if_neg hcond] at hfa2
        exact absurd hfa2 (by simp)
  · rintro ⟨hkept, gd, hga, hcond, rfl⟩
    refine ⟨kept, hkept, ?_⟩
    rw [hga]
    show (if (unordered_mergeset gd).any (fun x => !(keep.contains x)) then
        some (kept, compact_ghostdag keep gd) else none)
      = some (kept, compact_ghostdag keep gd)
    rw [if_pos ((any_not_contains_iff _ keep).mpr hcond)]

/-- Claim C6: relations compaction rewrites the level-0 GHOSTDAG record of a
block in `keep_relations` exactly when its unordered mergeset mentions a block
outside `keep_relations`; the rewrite filters `mergeset_blues`,
`mergeset_reds` and the `blues_anticone_sizes` keys down to `keep_relations`
members and replaces the selected parent by `ORIGIN` exactly when it is not
kept; blocks with no GHOSTDAG entry are skipped, and the batch is applied as
one write. -/
theorem ghostdag_compaction_spec (keep : List Hash)
    (store : List (Nat × GhostdagData)) (kept : Hash) (gd2 gd : GhostdagData)
    (x : Hash) (p : Hash × Nat) :
    ((kept, gd2) ∈ ghostdag_compaction_batch keep store ↔
      kept ∈ keep ∧ ∃ gd3, alookup store kept = some gd3
        ∧ (∃ y ∈ unordered_mergeset gd3, y ∉ keep)
        ∧ gd2 = compact_ghostdag keep gd3)
    ∧ (x ∈ (compact_ghostdag keep gd).mergeset_blues ↔
        x ∈ gd.mergeset_blues ∧ x ∈ keep)
    ∧ (x ∈ (compact_ghostdag keep gd).mergeset_reds ↔
        x ∈ gd.mergeset_reds ∧ x ∈ keep)
    ∧ (p ∈ (compact_ghostdag keep gd).blues_anticone_sizes ↔
        p ∈ gd.blues_anticone_sizes ∧ p.1 ∈ keep)
    ∧ ((compact_ghostdag keep gd).selected_parent
        = if gd.selected_parent ∈ keep then gd.selected_parent else ORIGIN)
    ∧ (alookup store kept = some gd → kept ∈ keep →
        (∃ y ∈ unordered_mergeset gd, y ∉ keep) →
        alookup (ghostdag_relations_compaction keep store) kept
          = some (compact_ghostdag keep gd))
    ∧ (alookup store kept = some gd → (∀ y ∈ unordered_mergeset gd, y ∈ keep) →
        alookup (ghostdag_relations_compaction keep store) kept
          = alookup store kept)
    ∧ (alookup store kept = none →
        alookup (ghostdag_relations_compaction keep store) kept = none) := by
  have hbatchnone : ∀ kept2, (∀ g, (kept2, g) ∉ ghostdag_compaction_batch keep store) →
      alookup (ghostdag_relations_compaction keep store) kept2 = alookup store kept2 := by
    intro kept2 hno
    unfold ghostdag_relations_compaction apply_ghostdag_updates
    rw [foldl_prepend, alookup_append, alookup_none_of_keys]
    intro q hq
    rw [List.mem_reverse] at hq
    intro hk
    subst hk
    exact hno q.2 hq
  refine ⟨ghostdag_compaction_batch_mem keep store kept gd2, ?_, ?_, ?_, ?_, ?_, ?_, ?_⟩
  · simp [compact_ghostdag, List.mem_filter]
  · simp [compact_ghostdag, List.mem_filter]
  · simp [compact_ghostdag, List.mem_filter]
  · by_cases hsp : gd.selected_parent ∈ keep
    · simp [compact_ghostdag, hsp]
    · simp [compact_ghostdag, hsp]
  · intro hga hkept hcond
    unfold ghostdag_relations_compaction apply_ghostdag_updates
    rw [foldl_prepend, alookup_append]
    have hsome : alookup (ghostdag_compaction_batch keep store).reverse kept
        = some (compact_ghostdag keep gd) := by
      apply alookup_of_mem_unique
      · refine ⟨compact_ghostdag keep gd, ?_⟩
        rw [List.mem_reverse, ghostdag_compaction_batch_mem]
        exact ⟨hkept, gd, hga, hcond, rfl⟩
      · intro g hg
        rw [List.mem_reverse, ghostdag_compaction_batch_mem] at hg
        obtain ⟨ -, gd3, hga3, -, hc⟩ := hg
        rw [hga] at hga3
        rw [← Option.some.inj hga3] at hc
        exact hc
    rw [hsome]
  · intro hga hall
    apply hbatchnone
    intro g hg
    rw [ghostdag_compaction_batch_mem] at hg
    obtain ⟨ -, gd3, hga3, ⟨y, hy, hyk⟩, -⟩ := hg
    rw [hga] at hga3
    rw [← Option.some.inj hga3] at hy
    exact hyk (hall y hy)
  · intro hga
    rw [hbatchnone kept ?_, hga]
    intro g hg
    rw [ghostdag_compaction_batch_mem] at hg
    obtain ⟨ -, gd3, hga3, -, -⟩ := hg
    rw [hga] at hga3
    exact absurd hga3 (by simp)

theorem ghostdag_compaction_spec_witness :
    alookup (ghostdag_relations_compaction [2, 3] [(2, ⟨9, [3, 9], [4], [(3, 1), (9, 2)]⟩)])
        2 = some ⟨0, [3], [], [(3, 1)]⟩ := by
  have h := ghostdag_compaction_spec [2, 3] [(2, ⟨9, [3, 9], [4], [(3, 1), (9, 2)]⟩)]
    2 ⟨0, [3], [], [(3, 1)]⟩ ⟨9, [3, 9], [4], [(3, 1), (9, 2)]⟩ 0 (0, 0)
  have h2 := h.2.2.2.2.2.1 (by decide) (by decide) ⟨9, by decide, by decide⟩
  rw [h2]
  decide

theorem contains_apply_tolerant_dlr (s : List Hash) (c h : Hash) (hne : h ≠ c) :
    (apply_tolerant delete_level_relations s c).contains h = s.contains h := by
  by_cases hc : s.contains c = true
  · simp only [apply_tolerant, delete_level_relations, hc, if_true, unwrap_option]
    exact contains_serase_ne s c h hne
  · simp only [Bool.not_eq_true] at hc
    have hcm : c ∉ s := by simpa using hc
    simp [apply_tolerant, delete_level_relations, unwrap_option, hcm]

theorem contains_apply_tolerant_gdd (s : List Hash) (c h : Hash) (hne : h ≠ c) :
    (apply_tolerant ghostdag_delete s c).contains h = s.contains h := by
  by_cases hc : s.contains c = true
  · simp only [apply_tolerant, ghostdag_delete, hc, if_true, unwrap_option]
    exact contains_serase_ne s c h hne
  · simp only [Bool.not_eq_true] at hc
    have hcm : c ∉ s := by simpa using hc
    simp [apply_tolerant, ghostdag_delete, unwrap_option, hcm]

theorem map_contains_set (l : List (List Hash)) (i : Nat) (t : List Hash) (h : Hash)
    (he : t.contains h = (l.getD i []).contains h) :
    (l.set i t).map (fun s => s.contains h) = l.map (fun s => s.contains h) := by
  induction l generalizing i with
  | nil => simp
  | cons a as ih =>
    cases i with
    | zero =>
      simp only [List.set_cons_zero, List.map_cons]
      rw [show t.contains h = a.contains h from by simpa using he]
    | succ j =>
      simp only [List.set_cons_succ, List.map_cons]
      rw [ih j (by simpa using he)]

theorem stores_at_prune_levels_ne (st : Stores) (c : Hash) (bl : Nat) (h : Hash)
    (hne : h ≠ c) : stores_at (prune_levels st c bl) h = stores_at st h := by
  unfold prune_levels
  generalize List.range (bl + 1) = levels
  induction levels generalizing st with
  | nil => rfl
  | cons lv rest ih =>
    rw [List.foldl_cons]
    rw [ih]
    unfold stores_at
    simp only [Prod.mk.injEq, true_and, and_true]
    exact ⟨map_contains_set _ lv _ h (contains_apply_tolerant_dlr _ c h hne),
           map_contains_set _ lv _ h (contains_apply_tolerant_gdd _ c h hne)⟩

theorem stores_at_drop_caches_ne (st : Stores) (c h : Hash) (hne : h ≠ c) :
    stores_at (drop_window_caches st c) h = stores_at st h := by
  unfold stores_at drop_window_caches
  simp only [Prod.mk.injEq, true_and, and_true]
  exact ⟨contains_serase_ne _ c h hne, contains_serase_ne _ c h hne⟩

theorem stores_at_delete_body_ne (st : Stores) (c h : Hash) (hne : h ≠ c) :
    stores_at (delete_body_data st c) h = stores_at st h := by
  unfold stores_at delete_body_data
  simp only [Prod.mk.injEq, true_and, and_true]
  exact ⟨contains_serase_ne _ c h hne, contains_serase_ne _ c h hne,
    contains_serase_ne _ c h hne, contains_serase_ne _ c h hne,
    contains_serase_ne _ c h hne⟩

theorem stores_at_fully_prune_ne (kh : List Hash) (st st2 : Stores) (c h : Hash)
    (hne : h ≠ c) (hrun : fully_prune kh st c = some st2) :
    stores_at st2 h = stores_at st h := by
  unfold fully_prune at hrun
  cases hhd : alookup st.headers c with
  | none => rw [hhd] at hrun; simp at hrun
  | some bl =>
    rw [hhd] at hrun
    have hrun2 : (if kh.contains c then
        some { prune_levels st c bl with
          statuses := aerase (prune_levels st c bl).statuses c }
      else
        some { { prune_levels st c bl with
            statuses := aerase (prune_levels st c bl).statuses c } with
          headers := aerase (prune_levels st c bl).headers c }) = some st2 := hrun
    by_cases hkh : kh.contains c = true
    · rw [if_pos hkh] at hrun2
      rw [← Option.some.inj hrun2]
      have h1 : stores_at { prune_levels st c bl with
          statuses := aerase (prune_levels st c bl).statuses c } h
          = stores_at (prune_levels st c bl) h := by
        unfold stores_at
        simp only [Prod.mk.injEq, true_and, and_true]
        exact alookup_aerase_ne _ c h hne
      exact h1.trans (stores_at_prune_levels_ne st c bl h hne)
    · rw [if_neg hkh] at hrun2
      rw [← Option.some.inj hrun2]
      have h1 : stores_at { { prune_levels st c bl with
            statuses := aerase (prune_levels st c bl).statuses c } with
          headers := aerase (prune_levels st c bl).headers c } h
          = stores_at (prune_levels st c bl) h := by
        unfold stores_at
        simp only [Prod.mk.injEq, true_and, and_true]
        exact ⟨alookup_aerase_ne _ c h hne, alookup_aerase_ne _ c h hne⟩
      exact h1.trans (stores_at_prune_levels_ne st c bl h hne)

theorem stores_at_prune_block_ne (kb kr kh : List Hash) (st st2 : Stores) (c h : Hash)
    (hne : h ≠ c) (hrun : prune_block kb kr kh st c = some st2) :
    stores_at st2 h = stores_at st h := by
  have hrun2 : (if kb.contains c then some (drop_window_caches st c)
      else if kr.contains c then
        some { delete_body_data (drop_window_caches st c) c with
          statuses := aset (delete_body_data (drop_window_caches st c) c).statuses c
            BlockStatus.StatusHeaderOnly }
      else fully_prune kh (delete_body_data (drop_window_caches st c) c) c)
      = some st2 := hrun
  by_cases hkb : kb.contains c = true
  · rw [if_pos hkb] at hrun2
    rw [← Option.some.inj hrun2]
    exact stores_at_drop_caches_ne st c h hne
  · rw [if_neg hkb] at hrun2
    by_cases hkr : kr.contains c = true
    · rw [if_pos hkr] at hrun2
      rw [← Option.some.inj hrun2]
      have h1 : stores_at { delete_body_data (drop_window_caches st c) c with
          statuses := aset (delete_body_data (drop_window_caches st c) c).statuses c
            BlockStatus.StatusHeaderOnly } h
          = stores_at (delete_body_data (drop_window_caches st c) c) h := by
        unfold stores_at
        simp only [Prod.mk.injEq, true_and, and_true]
        exact alookup_aset_ne _ c h _ hne
      exact h1.trans ((stores_at_delete_body_ne _ c h hne).trans
        (stores_at_drop_caches_ne st c h hne))
    · rw [if_neg hkr] at hrun2
      exact (stores_at_fully_prune_ne kh _ st2 c h hne hrun2).trans
        ((stores_at_delete_body_ne _ c h hne).trans
          (stores_at_drop_caches_ne st c h hne))

/-- Claim C1: during the main traversal, a block `h` in the future of the new
pruning point (`is_ancestor(new_pruning_point, h)`) is skipped when popped:
it is never processed, so none of its store entries — body and UTXO data,
status, header, per-level relations and GHOSTDAG entries, window-cache
entries — is deleted or rewritten by the traversal. -/
theorem traversal_future_untouched (isAnc : Hash → Bool) (children : Hash → List Hash)
    (kb kr kh : List Hash) (fuel : Nat) (q : List Hash) (st st2 : Stores)
    (vs : List Hash) (h : Hash)
    (hanc : isAnc h = true)
    (hrun : prune_traversal isAnc children kb kr kh fuel q st = some (st2, vs)) :
    h ∉ vs ∧ stores_at st2 h = stores_at st h := by
  induction fuel generalizing q st st2 vs with
  | zero =>
    cases q with
    | nil =>
      simp only [prune_traversal, Option.some.injEq, Prod.mk.injEq] at hrun
      obtain ⟨h1, h2⟩ := hrun
      subst h1; subst h2
      exact ⟨by simp, rfl⟩
    | cons c rest => simp [prune_traversal] at hrun
  | succ n ih =>
    cases q with
    | nil =>
      simp only [prune_traversal, Option.some.injEq, Prod.mk.injEq] at hrun
      obtain ⟨h1, h2⟩ := hrun
      subst h1; subst h2
      exact ⟨by simp, rfl⟩
    | cons c rest =>
      simp only [prune_traversal] at hrun
      by_cases hc : isAnc c = true
      · rw [if_pos hc] at hrun
        exact ih rest st st2 vs hrun
      · rw [if_neg hc] at hrun
        cases hpb : prune_block kb kr kh st c with
        | none =>
          simp only [hpb] at hrun
          exact Option.noConfusion hrun
        | some stmid =>
          simp only [hpb] at hrun
          cases hrec : prune_traversal isAnc children kb kr kh n
              (rest ++ children c) stmid with
          | none =>
            simp only [hrec] at hrun
            exact Option.noConfusion hrun
          | some pr =>
            obtain ⟨st3, vs2⟩ := pr
            simp only [hrec, Option.some.injEq, Prod.mk.injEq] at hrun
            obtain ⟨h1, h2⟩ := hrun
            subst h1; subst h2
            have hch : c ≠ h := by
              intro he; rw [he] at hc; exact hc hanc
            obtain ⟨ihv, ihs⟩ := ih (rest ++ children c) stmid st3 vs2 hrec
            refine ⟨?_, ihs.trans
              (stores_at_prune_block_ne kb kr kh st stmid c h (Ne.symm hch) hpb)⟩
            simp only [List.mem_cons]
            rintro (he | hm)
            · exact hch he.symm
            · exact ihv hm

theorem traversal_future_untouched_witness :
    (5 : Hash) ∉ ([4] : List Hash)
    ∧ stores_at ⟨[4, 5], [4, 5], [4, 5], [4, 5], [4, 5],
        [(4, BlockStatus.StatusUTXOValid), (5, BlockStatus.StatusUTXOValid)],
        [(4, 0), (5, 0)], [[4, 5]], [[4, 5]], [5], [5]⟩ 5
      = stores_at ⟨[4, 5], [4, 5], [4, 5], [4, 5], [4, 5],
        [(4, BlockStatus.StatusUTXOValid), (5, BlockStatus.StatusUTXOValid)],
        [(4, 0), (5, 0)], [[4, 5]], [[4, 5]], [4, 5], [4, 5]⟩ 5 := by
  have h := traversal_future_untouched (fun x => x == 5) (fun x => []) [4] [5] []
    2 [4, 5]
    ⟨[4, 5], [4, 5], [4, 5], [4, 5], [4, 5],
      [(4, BlockStatus.StatusUTXOValid), (5, BlockStatus.StatusUTXOValid)],
      [(4, 0), (5, 0)], [[4, 5]], [[4, 5]], [4, 5], [4, 5]⟩
    ⟨[4, 5], [4, 5], [4, 5], [4, 5], [4, 5],
      [(4, BlockStatus.StatusUTXOValid), (5, BlockStatus.StatusUTXOValid)],
      [(4, 0), (5, 0)], [[4, 5]], [[4, 5]], [5], [5]⟩
    [4] 5 (by decide) (by decide)
  exact h

theorem prune_block_keep_relations (kb kr kh : List Hash) (st : Stores) (c : Hash)
    (hkb : kb.contains c = false) (hkr : kr.contains c = true) :
    prune_block kb kr kh st c
      = some { delete_body_data (drop_window_caches st c) c with
          statuses := aset (delete_body_data (drop_window_caches st c) c).statuses c
            BlockStatus.StatusHeaderOnly } := by
  show (if kb.contains c then some (drop_window_caches st c)
      else if kr.contains c then
        some { delete_body_data (drop_window_caches st c) c with
          statuses := aset (delete_body_data (drop_window_caches st c) c).statuses c
            BlockStatus.StatusHeaderOnly }
      else fully_prune kh (delete_body_data (drop_window_caches st c) c) c)
    = some { delete_body_data (drop_window_caches st c) c with
        statuses := aset (delete_body_data (drop_window_caches st c) c).statuses c
          BlockStatus.StatusHeaderOnly }
  have hmb : c ∉ kb := by simpa using hkb
  have hmr : c ∈ kr := by simpa using hkr
  simp [hmb, hmr]

theorem stores_at_eq_components (stA stB : Stores) (h : Hash)
    (he : stores_at stA h = stores_at stB h) :
    stA.utxo_multisets.contains h = stB.utxo_multisets.contains h
    ∧ stA.utxo_diffs.contains h = stB.utxo_diffs.contains h
    ∧ stA.acceptance_data.contains h = stB.acceptance_data.contains h
    ∧ stA.block_transactions.contains h = stB.block_transactions.contains h
    ∧ stA.daa_excluded.contains h = stB.daa_excluded.contains h
    ∧ alookup stA.statuses h = alookup stB.statuses h
    ∧ alookup stA.headers h = alookup stB.headers h
    ∧ stA.relations_stores.map (fun s => s.contains h)
        = stB.relations_stores.map (fun s => s.contains h)
    ∧ stA.ghostdag_stores.map (fun s => s.contains h)
        = stB.ghostdag_stores.map (fun s => s.contains h)
    ∧ stA.window_cache_difficulty.contains h = stB.window_cache_difficulty.contains h
    ∧ stA.window_cache_median_time.contains h
        = stB.window_cache_median_time.contains h := by
  unfold stores_at at he
  simp only [Prod.mk.injEq] at he
  exact he

theorem traversal_kr_preserved (isAnc : Hash → Bool) (children : Hash → List Hash)
    (kb kr kh : List Hash) (h : Hash)
    (hkb : kb.contains h = false) (hkr : kr.contains h = true) :
    ∀ fuel q st st2 vs,
      prune_traversal isAnc children kb kr kh fuel q st = some (st2, vs) →
      (alookup st.statuses h = some BlockStatus.StatusHeaderOnly
        ∧ st.utxo_multisets.contains h = false
        ∧ st.utxo_diffs.contains h = false
        ∧ st.acceptance_data.contains h = false
        ∧ st.block_transactions.contains h = false
        ∧ st.daa_excluded.contains h = false) →
      (alookup st2.statuses h = some BlockStatus.StatusHeaderOnly
        ∧ st2.utxo_multisets.contains h = false
        ∧ st2.utxo_diffs.contains h = false
        ∧ st2.acceptance_data.contains h = false
        ∧ st2.block_transactions.contains h = false
        ∧ st2.daa_excluded.contains h = false) := by
  intro fuel
  induction fuel with
  | zero =>
    intro q st st2 vs hrun hinv
    cases q with
    | nil =>
      simp only [prune_traversal, Option.some.injEq, Prod.mk.injEq] at hrun
      obtain ⟨h1, h2⟩ := hrun
      subst h1
      exact hinv
    | cons c rest => simp [prune_traversal] at hrun
  | succ n ih =>
    intro q st st2 vs hrun hinv
    cases q with
    | nil =>
      simp only [prune_traversal, Option.some.injEq, Prod.mk.injEq] at hrun
      obtain ⟨h1, h2⟩ := hrun
      subst h1
      exact hinv
    | cons c rest =>
      simp only [prune_traversal] at hrun
      by_cases hc : isAnc c = true
      · rw [if_pos hc] at hrun
        exact ih rest st st2 vs hrun hinv
      · rw [if_neg hc] at hrun
        cases hpb : prune_block kb kr kh st c with
        | none =>
          simp only [hpb] at hrun
          exact Option.noConfusion hrun
        | some stmid =>
          simp only [hpb] at hrun
          cases hrec : prune_traversal isAnc children kb kr kh n
              (rest ++ children c) stmid with
          | none =>
            simp only [hrec] at hrun
            exact Option.noConfusion hrun
          | some pr =>
            obtain ⟨st3, vs2⟩ := pr
            simp only [hrec, Option.some.injEq, Prod.mk.injEq] at hrun
            obtain ⟨h1, h2⟩ := hrun
            subst h1
            by_cases hch : c = h
            · subst hch
              rw [prune_block_keep_relations kb kr kh st c hkb hkr] at hpb
              have hmid : stmid = { delete_body_data (drop_window_caches st c) c with
                  statuses := aset (delete_body_data (drop_window_caches st c) c).statuses c
                    BlockStatus.StatusHeaderOnly } := (Option.some.inj hpb).symm
              subst hmid
              refine ih (rest ++ children c) _ st3 vs2 hrec ?_
              refine ⟨alookup_aset_self _ c BlockStatus.StatusHeaderOnly, ?_, ?_, ?_, ?_, ?_⟩
              all_goals exact contains_serase_self _ c
            · have hpres := stores_at_prune_block_ne kb kr kh st stmid c h
                (fun he => hch he.symm) hpb
              obtain ⟨e1, e2, e3, e4, e5, e6, e7, e8, e9, e10, e11⟩ :=
                stores_at_eq_components stmid st h hpres
              refine ih (rest ++ children c) stmid st3 vs2 hrec ?_
              obtain ⟨i1, i2, i3, i4, i5, i6⟩ := hinv
              exact ⟨e6.trans i1, e1.trans i2, e2.trans i3, e3.trans i4,
                e4.trans i5, e5.trans i6⟩

theorem traversal_kr_header_components (isAnc : Hash → Bool)
    (children : Hash → List Hash) (kb kr kh : List Hash) (h : Hash)
    (hkb : kb.contains h = false) (hkr : kr.contains h = true) :
    ∀ fuel q st st2 vs,
      prune_traversal isAnc children kb kr kh fuel q st = some (st2, vs) →
      alookup st2.headers h = alookup st.headers h
      ∧ st2.relations_stores.map (fun s => s.contains h)
          = st.relations_stores.map (fun s => s.contains h)
      ∧ st2.ghostdag_stores.map (fun s => s.contains h)
          = st.ghostdag_stores.map (fun s => s.contains h) := by
  intro fuel
  induction fuel with
  | zero =>
    intro q st st2 vs hrun
    cases q with
    | nil =>
      simp only [prune_traversal, Option.some.injEq, Prod.mk.injEq] at hrun
      obtain ⟨h1, h2⟩ := hrun
      subst h1
      exact ⟨rfl, rfl, rfl⟩
    | cons c rest => simp [prune_traversal] at hrun
  | succ n ih =>
    intro q st st2 vs hrun
    cases q with
    | nil =>
      simp only [prune_traversal, Option.some.injEq, Prod.mk.injEq] at hrun
      obtain ⟨h1, h2⟩ := hrun
      subst h1
      exact ⟨rfl, rfl, rfl⟩
    | cons c rest =>
      simp only [prune_traversal] at hrun
      by_cases hc : isAnc c = true
      · rw [if_pos hc] at hrun
        exact ih rest st st2 vs hrun
      · rw [if_neg hc] at hrun
        cases hpb : prune_block kb kr kh st c with
        | none =>
          simp only [hpb] at hrun
          exact Option.noConfusion hrun
        | some stmid =>
          simp only [hpb] at hrun
          cases hrec : prune_traversal isAnc children kb kr kh n
              (rest ++ children c) stmid with
          | none =>
            simp only [hrec] at hrun
            exact Option.noConfusion hrun
          | some pr =>
            obtain ⟨st3, vs2⟩ := pr
            simp only [hrec, Option.some.injEq, Prod.mk.injEq] at hrun
            obtain ⟨h1, h2⟩ := hrun
            subst h1
            obtain ⟨j1, j2, j3⟩ := ih (rest ++ children c) stmid st3 vs2 hrec
            by_cases hch : c = h
            · subst hch
              rw [prune_block_keep_relations kb kr kh st c hkb hkr] at hpb
              have hmid : stmid = { delete_body_data (drop_window_caches st c) c with
                  statuses := aset (delete_body_data (drop_window_caches st c) c).statuses c
                    BlockStatus.StatusHeaderOnly } := (Option.some.inj hpb).symm
              subst hmid
              exact ⟨j1, j2, j3⟩
            · have hpres := stores_at_prune_block_ne kb kr kh st stmid c h
                (fun he => hch he.symm) hpb
              obtain ⟨ -, -, -, -, -, -, e7, e8, e9, -, -⟩ :=
                stores_at_eq_components stmid st h hpres
              exact ⟨j1.trans e7, j2.trans e8, j3.trans e9⟩

theorem traversal_kr_established (isAnc : Hash → Bool) (children : Hash → List Hash)
    (kb kr kh : List Hash) (h : Hash)
    (hkb : kb.contains h = false) (hkr : kr.contains h = true) :
    ∀ fuel q st st2 vs,
      prune_traversal isAnc children kb kr kh fuel q st = some (st2, vs) →
      h ∈ vs →
      (alookup st2.statuses h = some BlockStatus.StatusHeaderOnly
        ∧ st2.utxo_multisets.contains h = false
        ∧ st2.utxo_diffs.contains h = false
        ∧ st2.acceptance_data.contains h = false
        ∧ st2.block_transactions.contains h = false
        ∧ st2.daa_excluded.contains h = false) := by
  intro fuel
  induction fuel with
  | zero =>
    intro q st st2 vs hrun hvis
    cases q with
    | nil =>
      simp only [prune_traversal, Option.some.injEq, Prod.mk.injEq] at hrun
      obtain ⟨h1, h2⟩ := hrun
      subst h2
      simp at hvis
    | cons c rest => simp [prune_traversal] at hrun
  | succ n ih =>
    intro q st st2 vs hrun hvis
    cases q with
    | nil =>
      simp only [prune_traversal, Option.some.injEq, Prod.mk.injEq] at hrun
      obtain ⟨h1, h2⟩ := hrun
      subst h2
      simp at hvis
    | cons c rest =>
      simp only [prune_traversal] at hrun
      by_cases hc : isAnc c = true
      · rw [if_pos hc] at hrun
        exact ih rest st st2 vs hrun hvis
      · rw [if_neg hc] at hrun
        cases hpb : prune_block kb kr kh st c with
        | none =>
          simp only [hpb] at hrun
          exact Option.noConfusion hrun
        | some stmid =>
          simp only [hpb] at hrun
          cases hrec : prune_traversal isAnc children kb kr kh n
              (rest ++ children c) stmid with
          | none =>
            simp only [hrec] at hrun
            exact Option.noConfusion hrun
          | some pr =>
            obtain ⟨st3, vs2⟩ := pr
            simp only [hrec, Option.some.injEq, Prod.mk.injEq] at hrun
            obtain ⟨h1, h2⟩ := hrun
            subst h1
            subst h2
            by_cases hch : c = h
            · subst hch
              rw [prune_block_keep_relations kb kr kh st c hkb hkr] at hpb
              have hmid : stmid = { delete_body_data (drop_window_caches st c) c with
                  statuses := aset (delete_body_data (drop_window_caches st c) c).statuses c
                    BlockStatus.StatusHeaderOnly } := (Option.some.inj hpb).symm
              subst hmid
              exact traversal_kr_preserved isAnc children kb kr kh c hkb hkr
                n (rest ++ children c) _ st3 vs2 hrec
                ⟨alookup_aset_self _ c BlockStatus.StatusHeaderOnly,
                  contains_serase_self _ c, contains_serase_self _ c,
                  contains_serase_self _ c, contains_serase_self _ c,
                  contains_serase_self _ c⟩
            · have hvs2 : h ∈ vs2 := by
                cases List.mem_cons.mp hvis with
                | inl he => exact absurd he.symm hch
                | inr hm => exact hm
              exact ih (rest ++ children c) stmid st3 vs2 hrec hvs2

/-- Claim C5: after the traversal, a visited block `h` in
`keep_relations \ keep_blocks` has status `StatusHeaderOnly`; its header,
per-level relations entries and per-level GHOSTDAG entries are exactly as
before the traversal (hence still present), while its body/UTXO entries —
utxo_multisets, utxo_diffs, acceptance_data, block_transactions,
daa_excluded — are absent. -/
theorem header_only_retention (isAnc : Hash → Bool) (children : Hash → List Hash)
    (kb kr kh : List Hash) (fuel : Nat) (q : List Hash) (st st2 : Stores)
    (vs : List Hash) (h : Hash)
    (hkb : kb.contains h = false) (hkr : kr.contains h = true)
    (hrun : prune_traversal isAnc children kb kr kh fuel q st = some (st2, vs))
    (hvis : h ∈ vs) :
    alookup st2.statuses h = some BlockStatus.StatusHeaderOnly
    ∧ st2.utxo_multisets.contains h = false
    ∧ st2.utxo_diffs.contains h = false
    ∧ st2.acceptance_data.contains h = false
    ∧ st2.block_transactions.contains h = false
    ∧ st2.daa_excluded.contains h = false
    ∧ alookup st2.headers h = alookup st.headers h
    ∧ st2.relations_stores.map (fun s => s.contains h)
        = st.relations_stores.map (fun s => s.contains h)
    ∧ st2.ghostdag_stores.map (fun s => s.contains h)
        = st.ghostdag_stores.map (fun s => s.contains h) := by
  obtain ⟨j1, j2, j3⟩ := traversal_kr_header_components isAnc children kb kr kh h
    hkb hkr fuel q st st2 vs hrun
  obtain ⟨f1, f2, f3, f4, f5, f6⟩ := traversal_kr_established isAnc children kb kr kh h
    hkb hkr fuel q st st2 vs hrun hvis
  exact ⟨f1, f2, f3, f4, f5, f6, j1, j2, j3⟩

theorem header_only_retention_witness :
    alookup
      (⟨[], [], [], [], [],
        [(5, BlockStatus.StatusHeaderOnly), (5, BlockStatus.StatusUTXOValid)],
        [(5, 0)], [[5]], [[5]], [], []⟩ : Stores).statuses 5
      = some BlockStatus.StatusHeaderOnly
    ∧ (⟨[], [], [], [], [],
        [(5, BlockStatus.StatusHeaderOnly), (5, BlockStatus.StatusUTXOValid)],
        [(5, 0)], [[5]], [[5]], [], []⟩ : Stores).utxo_diffs.contains 5 = false
    ∧ alookup (⟨[], [], [], [], [],
        [(5, BlockStatus.StatusHeaderOnly), (5, BlockStatus.StatusUTXOValid)],
        [(5, 0)], [[5]], [[5]], [], []⟩ : Stores).headers 5
      = alookup (⟨[5], [5], [5], [5], [5], [(5, BlockStatus.StatusUTXOValid)],
        [(5, 0)], [[5]], [[5]], [5], [5]⟩ : Stores).headers 5 := by
  have h := header_only_retention (fun _ => false) (fun _ => []) [4] [5] [] 2 [5]
    ⟨[5], [5], [5], [5], [5], [(5, BlockStatus.StatusUTXOValid)],
      [(5, 0)], [[5]], [[5]], [5], [5]⟩
    ⟨[], [], [], [], [],
      [(5, BlockStatus.StatusHeaderOnly), (5, BlockStatus.StatusUTXOValid)],
      [(5, 0)], [[5]], [[5]], [], []⟩
    [5] 5 (by decide) (by decide) (by decide) (by decide)
  exact ⟨h.1, h.2.2.1, h.2.2.2.2.2.2.1⟩

/-- Claim C10: when a block is fully pruned, the per-level deletions for each
level tolerate a missing entry — the missing-key error of the level-relations
delete or the level-GHOSTDAG delete is converted into an `Option` and
ignored, leaving the store unchanged — so the block's prune succeeds whenever
its header is present, regardless of which levels have entries; a missing
header for the block is fatal. -/
theorem level_delete_tolerance (kb kr kh : List Hash) (st : Stores) (c : Hash)
    (bl : Nat) (hkb : kb.contains c = false) (hkr : kr.contains c = false) :
    (alookup st.headers c = some bl → (prune_block kb kr kh st c).isSome = true)
    ∧ (alookup st.headers c = none → prune_block kb kr kh st c = none)
    ∧ (∀ s : List Hash, s.contains c = false →
        unwrap_option (delete_level_relations s c) = none
        ∧ unwrap_option (ghostdag_delete s c) = none
        ∧ apply_tolerant delete_level_relations s c = s
        ∧ apply_tolerant ghostdag_delete s c = s) := by
  have hmb : c ∉ kb := by simpa using hkb
  have hmr : c ∉ kr := by simpa using hkr
  have hred : prune_block kb kr kh st c
      = fully_prune kh (delete_body_data (drop_window_caches st c) c) c := by
    show (if kb.contains c then some (drop_window_caches st c)
        else if kr.contains c then
          some { delete_body_data (drop_window_caches st c) c with
            statuses := aset (delete_body_data (drop_window_caches st c) c).statuses c
              BlockStatus.StatusHeaderOnly }
        else fully_prune kh (delete_body_data (drop_window_caches st c) c) c)
      = fully_prune kh (delete_body_data (drop_window_caches st c) c) c
    simp [hmb, hmr]
  have hhd : (delete_body_data (drop_window_caches st c) c).headers = st.headers := rfl
  refine ⟨?_, ?_, ?_⟩
  · intro hsome
    rw [hred]
    simp only [fully_prune, hhd, hsome]
    split <;> simp
  · intro hnone
    rw [hred]
    simp only [fully_prune, hhd, hnone]
  · intro s hs
    have hsm : c ∉ s := by simpa using hs
    refine ⟨?_, ?_, ?_, ?_⟩ <;>
      simp [delete_level_relations, ghostdag_delete, apply_tolerant,
        unwrap_option, hsm]

theorem level_delete_tolerance_witness :
    (prune_block [] [] [] ⟨[], [], [], [], [], [], [(4, 2)], [[4], [], [4]], [[4]],
        [], []⟩ 4).isSome = true
    ∧ prune_block [] [] [] ⟨[], [], [], [], [], [], [], [[4]], [[4]], [], []⟩ 4
        = none
    ∧ unwrap_option (delete_level_relations [] 4) = none := by
  have h1 := level_delete_tolerance [] [] []
    ⟨[], [], [], [], [], [], [(4, 2)], [[4], [], [4]], [[4]], [], []⟩ 4 2
    (by decide) (by decide)
  have h2 := level_delete_tolerance [] [] []
    ⟨[], [], [], [], [], [], [], [[4]], [[4]], [], []⟩ 4 0
    (by decide) (by decide)
  exact ⟨h1.1 (by decide), h2.2.1 (by decide), (h1.2.2 [] (by decide)).1⟩

/-- Claim C8 counterexample: on a concrete non-archival run the reachability
upgradable read (processor.rs line 213) is acquired before the tips batch is
committed (line 263), so the tips batch is not committed before a
reachability lock is held. -/
theorem tips_batch_after_reach_lock_counterexample :
    tips_committed_before_reach_lock
      ((prune_run false (fun _ => false) (fun _ => []) [] [3] 1).1) = false := by
  decide

/-- Claim C8 (amended): the tips-and-selected-chain batch is committed while
the reachability upgradable read is already held, but before any reachability
write lock is taken by the pruning processor — the first reachability write
lock (a staging commit of the traversal) comes strictly after the tips batch
commit in every run. -/
theorem tips_batch_before_reach_write (archival : Bool) (isAnc : Hash → Bool)
    (children : Hash → List Hash) (kb tips : List Hash) (fuel : Nat) :
    tips_committed_before_reach_write
      ((prune_run archival isAnc children kb tips fuel).1) = true := by
  by_cases ha : archival = true
  · subst ha
    simp [prune_run, tips_committed_before_reach_write, first_idx]
  · have ha2 : archival = false := by simpa using ha
    subst ha2
    simp only [prune_run, Bool.false_eq_true, if_false]
    simp only [tips_committed_before_reach_write, first_idx, is_commit_tips,
      is_reach_write, Bool.false_eq_true, if_false, if_true]
    cases hk : first_idx is_reach_write
        (prune_trace_traversal isAnc children kb fuel (children ORIGIN)) with
    | none => simp
    | some k => simp

/-- Claim C9: after the tip-pruning step, the body-tips store holds exactly
the previous tips `t` with `is_ancestor(new_pruning_point, t)`: exactly the
tips failing that test are removed, so every remaining tip satisfies it. -/
theorem tip_soundness (isAnc : Hash → Bool) (children : Hash → List Hash)
    (kb tips : List Hash) (fuel : Nat) (t : Hash) :
    t ∈ (prune_run false isAnc children kb tips fuel).2
      ↔ (t ∈ tips ∧ isAnc t = true) := by
  simp only [prune_run, Bool.false_eq_true, if_false]
  simp only [List.mem_filter]
  constructor
  · rintro ⟨ht, hb⟩
    refine ⟨ht, ?_⟩
    by_cases hA : isAnc t = true
    · exact hA
    · exfalso
      have hmem : t ∈ tips.filter (fun x => !(isAnc x)) := by
        rw [List.mem_filter]
        exact ⟨ht, by simp [hA]⟩
      simp [List.elem_eq_mem, hmem] at hb
  · rintro ⟨ht, hA⟩
    refine ⟨ht, ?_⟩
    have hnm : t ∉ tips.filter (fun x => !(isAnc x)) := by
      rw [List.mem_filter]
      rintro ⟨ -, hb⟩
      rw [hA] at hb
      simp at hb
    simp [List.elem_eq_mem, hnm]

end Pruning
